import Mathlib

/-
Verification of the LunaAI Memory & Pattern Recognition Engine.

This file shallowly embeds the core of the engine:
  * the confidence-scored memory store (memory_database.py),
  * the algorithmic pattern extractor (pattern_extractor.py),
  * the reconciliation analyzer and orchestrator
    (pattern_analyzer.py, pattern_recognizer.py),
and proves (or refutes) the specified properties about them.

Modelling conventions:
  * SQL rows become Lean structures; a table becomes a list of rows.
  * Python floats become rationals (ℚ); all confidence arithmetic in the
    source is elementary (min/max/+/*), so ℚ is a faithful model of the
    values the claims exercise.
  * Timestamps become integers (seconds); `datetime.now()` becomes an
    explicit `now` parameter.
  * The external LLM call is a parameter of the orchestration function:
    its outcome (error text, missing response, parsed modification list)
    is passed in, exactly as the orchestrator consumes it.
-/

namespace Luna

/-- One row of the `memories` table: id, memory text, confidence, last_updated
(memory_database.py, `_init_database`). -/
structure Mem where
  id : Nat
  text : String
  confidence : ℚ
  lastUpdated : ℤ
  deriving DecidableEq, Repr

/-- The memory store: the `memories` table plus the autoincrement counter. -/
structure Store where
  rows : List Mem
  nextId : Nat
  deriving DecidableEq, Repr

/-- `SELECT ... FROM memories WHERE id = ?` followed by `fetchone()`. -/
def Store.findRow (s : Store) (id : Nat) : Option Mem :=
  s.rows.find? (fun m => m.id == id)

/-- `add_memory(memory, confidence=0.5)` (memory_database.py lines 61-72):
inserts a row and returns `lastrowid`.  No validation of any kind is
performed on `confidence`. -/
def add_memory (s : Store) (text : String) (confidence : ℚ) (now : ℤ) :
    Store × Nat :=
  (⟨s.rows ++ [⟨s.nextId, text, confidence, now⟩], s.nextId + 1⟩, s.nextId)

/-- The `ORDER BY confidence DESC, last_updated DESC` comparison used by
`get_memories` and `search_similar_memories`. -/
def memBefore (a b : Mem) : Prop :=
  b.confidence < a.confidence ∨
    (a.confidence = b.confidence ∧ b.lastUpdated ≤ a.lastUpdated)

instance : DecidableRel memBefore := fun a b => by
  unfold memBefore; infer_instance

/-- `get_memories(min_confidence=0.0, limit=None)` (lines 74-96).
`if limit:` is Python truthiness, so a limit of `0` behaves like no limit. -/
def get_memories (s : Store) (minConfidence : ℚ) (limit : Option Nat) :
    List Mem :=
  match limit with
  | none =>
      List.insertionSort memBefore
        (s.rows.filter (fun m => decide (minConfidence ≤ m.confidence)))
  | some l =>
      if l = 0 then
        List.insertionSort memBefore
          (s.rows.filter (fun m => decide (minConfidence ≤ m.confidence)))
      else
        (List.insertionSort memBefore
          (s.rows.filter (fun m => decide (minConfidence ≤ m.confidence)))).take l

/-- The reinforcement update `min(1.0, c + factor * (1.0 - c))`
(memory_database.py line 109). -/
def reinforceStep (factor c : ℚ) : ℚ :=
  min 1 (c + factor * (1 - c))

/-- `reinforce_memory(memory_id, factor=0.1)` (lines 98-119): looks the row
up, applies `reinforceStep` and returns `True`; returns `False` when the id
is unknown. -/
def reinforce_memory (s : Store) (id : Nat) (factor : ℚ) (now : ℤ) :
    Store × Bool :=
  match s.findRow id with
  | none => (s, false)
  | some m =>
      let newConfidence := reinforceStep factor m.confidence
      (⟨s.rows.map (fun r =>
          if r.id = id then { r with confidence := newConfidence, lastUpdated := now } else r),
        s.nextId⟩, true)

/-- The weakening update `max(0.0, c * (1.0 - factor))`
(memory_database.py line 132). -/
def weakenStep (factor c : ℚ) : ℚ :=
  max 0 (c * (1 - factor))

/-- The three possible returns of `weaken_memory`: `"deleted"`, `True`,
`False`. -/
inductive WeakenResult where
  | deleted
  | updated
  | notFound
  deriving DecidableEq, Repr

/-- `weaken_memory(memory_id, factor=0.2, auto_cleanup_threshold=0.1)`
(lines 121-147): computes the weakened confidence; deletes the row and
returns `"deleted"` when it drops below the threshold, stores it and
returns `True` otherwise, and returns `False` for an unknown id. -/
def weaken_memory (s : Store) (id : Nat) (factor threshold : ℚ) (now : ℤ) :
    Store × WeakenResult :=
  match s.findRow id with
  | none => (s, .notFound)
  | some m =>
      let newConfidence := weakenStep factor m.confidence
      if newConfidence < threshold then
        (⟨s.rows.filter (fun r => r.id != id), s.nextId⟩, .deleted)
      else
        (⟨s.rows.map (fun r =>
            if r.id = id then { r with confidence := newConfidence, lastUpdated := now } else r),
          s.nextId⟩, .updated)

/-- `update_memory_content(memory_id, new_text)` (lines 239-251): replaces
the text, refreshes `last_updated`, returns whether a row matched. -/
def update_memory_content (s : Store) (id : Nat) (newText : String) (now : ℤ) :
    Store × Bool :=
  (⟨s.rows.map (fun r =>
      if r.id = id then { r with text := newText, lastUpdated := now } else r),
    s.nextId⟩, s.rows.any (fun r => r.id == id))

/-- `cleanup_low_confidence_memories(threshold=0.1)` (lines 174-183):
`DELETE FROM memories WHERE confidence < ?`, returning the deleted count. -/
def cleanup_low_confidence_memories (s : Store) (threshold : ℚ) :
    Store × Nat :=
  let kept := s.rows.filter (fun r => !decide (r.confidence < threshold))
  (⟨kept, s.nextId⟩, s.rows.length - kept.length)

/-- Python `str.lower()`, written over the character list so that concrete
instances evaluate inside the kernel. -/
def pyLower (s : String) : String := String.mk (s.data.map Char.toLower)

/-- Python `str.strip()`: drop leading and trailing whitespace. -/
def pyTrim (s : String) : String :=
  String.mk (((s.data.dropWhile Char.isWhitespace).reverse.dropWhile
    Char.isWhitespace).reverse)

/-- Worker for `pySplit`: `acc` holds the reversed characters of the word
being accumulated. -/
def pySplitChars : List Char → List Char → List String
  | [], acc => if acc = [] then [] else [String.mk acc.reverse]
  | c :: cs, acc =>
      if c.isWhitespace then
        (if acc = [] then [] else [String.mk acc.reverse]) ++ pySplitChars cs []
      else pySplitChars cs (c :: acc)

/-- Python `str.split()`: split on whitespace, dropping empty pieces. -/
def pySplit (s : String) : List String := pySplitChars s.data []

/-- `search_similar_memories(query, min_confidence=0.3)` (lines 149-172):
keeps rows at or above the confidence floor whose lowercased text contains
at least one lowercased query term (`LOWER(memory) LIKE '%term%'` joined by
`OR`), ordered like `get_memories`, `LIMIT 20`. -/
def search_similar_memories (s : Store) (query : String) (minConfidence : ℚ) :
    List Mem :=
  let terms := pySplit (pyLower query)
  let matched := s.rows.filter (fun m =>
    decide (minConfidence ≤ m.confidence) &&
      terms.any (fun t => decide (List.IsInfix t.data (pyLower m.text).data)))
  (List.insertionSort memBefore matched).take 20

/-- The mutating calls of the store, as an operation language: one
constructor per public mutator of `MemoryDatabase`. -/
inductive MemOp where
  | add (text : String) (confidence : ℚ) (now : ℤ)
  | reinforce (id : Nat) (factor : ℚ) (now : ℤ)
  | weaken (id : Nat) (factor threshold : ℚ) (now : ℤ)
  | updateContent (id : Nat) (text : String) (now : ℤ)
  | cleanup (threshold : ℚ)

/-- Run one store operation, dropping the returned value. -/
def applyOp (s : Store) : MemOp → Store
  | .add text c now => (add_memory s text c now).1
  | .reinforce id f now => (reinforce_memory s id f now).1
  | .weaken id f t now => (weaken_memory s id f t now).1
  | .updateContent id text now => (update_memory_content s id text now).1
  | .cleanup t => (cleanup_low_confidence_memories s t).1

/-- Run a sequence of store operations. -/
def applyOps (s : Store) (ops : List MemOp) : Store :=
  ops.foldl applyOp s

/-- An operation as the system issues it: creations carry a confidence in
[0,1] (the pipeline always creates at 0.5) and reinforce/weaken factors are
rates in [0,1] (defaults 0.1 and 0.2). -/
def MemOp.valid : MemOp → Prop
  | .add _ c _ => 0 ≤ c ∧ c ≤ 1
  | .reinforce _ f _ => 0 ≤ f ∧ f ≤ 1
  | .weaken _ f _ _ => 0 ≤ f ∧ f ≤ 1
  | .updateContent _ _ _ => True
  | .cleanup _ => True

instance : DecidablePred MemOp.valid := fun op => by
  cases op <;> (unfold MemOp.valid; infer_instance)

/-- All stored confidences lie in [0,1]. -/
def confidencesBounded (s : Store) : Prop :=
  ∀ m ∈ s.rows, 0 ≤ m.confidence ∧ m.confidence ≤ 1

/-- A tool-argument value as `_extract_key_terms` discriminates them:
a string, a list of strings, or anything else (ignored). -/
inductive ArgVal where
  | str (v : String)
  | strs (items : List String)
  | other
  deriving DecidableEq, Repr

/-- One row of the `tool_executions` table as the extractor consumes it:
id, tool name, timestamp (seconds), parsed arguments. -/
structure Exec where
  id : Nat
  tool : String
  timestamp : ℤ
  arguments : List (String × ArgVal)
  deriving DecidableEq, Repr

/-- The stop-word set of `_extract_key_terms` used for string-valued
arguments (pattern_extractor.py line 454). -/
def stopWordsFull : List String :=
  ["the", "and", "for", "are", "but", "not", "you", "all", "can", "had",
   "her", "was", "one", "our", "out", "day", "get", "has", "him", "his",
   "how", "its", "may", "new", "now", "old", "see", "two", "who", "boy",
   "did", "man", "way", "where", "with", "this", "that", "they", "will",
   "from", "have", "been", "said", "each", "which", "what", "were", "when",
   "more", "than", "into", "very", "after", "first", "well", "just", "like",
   "over", "also", "back", "other", "many", "then", "them", "these", "some",
   "time", "would", "could", "should", "about", "there", "their", "only",
   "come", "work", "know", "take", "year", "good", "much", "make", "most",
   "long", "little", "great", "right", "still", "small", "large", "such",
   "here", "even", "both", "last", "next", "same", "find", "give", "place",
   "want", "need", "seem", "high", "every", "between", "never", "being",
   "again", "around", "through", "during", "before", "another", "too"]

/-- The shorter stop-word set used for list-valued arguments
(pattern_extractor.py line 462). -/
def stopWordsShort : List String :=
  ["the", "and", "for", "are", "but", "not", "you", "all", "can", "had",
   "her", "was", "one", "our", "out", "day", "get", "has", "him", "his",
   "how", "its", "may", "new", "now", "old", "see", "two", "who", "boy",
   "did", "man", "way", "where", "with"]

/-- `[word.lower().strip() for word in value.split() if len(word) > 2]`. -/
def keyWords (v : String) : List String :=
  ((pySplit v).filter (fun w => decide (2 < w.length))).map
    (fun w => pyTrim (pyLower w))

/-- `_extract_key_terms(arguments)` (lines 445-466): the set of meaningful
lowercased words drawn from string and list-of-string argument values. -/
def extract_key_terms (args : List (String × ArgVal)) : Finset String :=
  args.foldl (fun terms kv =>
    match kv.2 with
    | .str v =>
        if 2 < v.length then
          terms ∪ ((keyWords v).filter (fun w => !stopWordsFull.contains w)).toFinset
        else terms
    | .strs items =>
        items.foldl (fun t item =>
          if 2 < item.length then
            t ∪ ((keyWords item).filter (fun w => !stopWordsShort.contains w)).toFinset
          else t) terms
    | .other => terms) ∅

/-- The tool-relation categories of `_get_related_tools` (lines 360-396). -/
def musicTools : List String :=
  ["play_song", "pause_music", "next_song", "previous_song", "set_volume",
   "search_spotify", "add_to_playlist", "save_track"]

def searchTools : List String :=
  ["google_search", "search_memory", "search_spotify", "search_notion"]

def browseTools : List String :=
  ["open_url", "navigate_to", "click_element", "scroll_page"]

def memoryTools : List String :=
  ["save_memory", "search_memory", "modify_memory", "delete_memory"]

def fileTools : List String :=
  ["read_file", "write_file", "create_document", "edit_document"]

def commTools : List String :=
  ["send_email", "send_message", "make_call"]

/-- `_get_related_tools(target_tool)`: the category containing the target,
or the target alone for an uncategorized tool. -/
def get_related_tools (target : String) : List String :=
  if musicTools.contains target then musicTools
  else if searchTools.contains target then searchTools
  else if browseTools.contains target then browseTools
  else if memoryTools.contains target then memoryTools
  else if fileTools.contains target then fileTools
  else if commTools.contains target then commTools
  else [target]

/-- `arguments.get(key, "")` when the value is a string (other values give
the empty string here; the source would stringify them before `.lower()`,
which no caller of this path does with non-strings). -/
def argString (args : List (String × ArgVal)) (key : String) : String :=
  match args.find? (fun kv => kv.1 == key) with
  | some (_, .str v) => v
  | _ => ""

/-- `str(arguments.get(key, ""))`: a total rendering of an argument value. -/
def argText (args : List (String × ArgVal)) (key : String) : String :=
  match args.find? (fun kv => kv.1 == key) with
  | some (_, .str v) => v
  | some (_, .strs items) => "[" ++ String.intercalate ", " items ++ "]"
  | some (_, .other) => "object"
  | none => ""

/-- `_has_similar_context(exec1, exec2)` (lines 398-427): query-word overlap
for search tools, artist/track/song/query containment for music tools. -/
def has_similar_context (e1 e2 : Exec) : Bool :=
  if e1.arguments.isEmpty || e2.arguments.isEmpty then false
  else
    let query1 := pyLower (argString e1.arguments "query")
    let query2 := pyLower (argString e2.arguments "query")
    if (e1.tool == "google_search" || e1.tool == "search_spotify") &&
       (e2.tool == "google_search" || e2.tool == "search_spotify") &&
       !(query1 == "") && !(query2 == "") then
      decide (2 ≤ ((pySplit query1).toFinset ∩ (pySplit query2).toFinset).card)
    else if (e1.tool == "play_song" || e1.tool == "search_spotify") &&
            (e2.tool == "play_song" || e2.tool == "search_spotify") then
      ["artist", "track", "song", "query"].any (fun key =>
        let v1 := pyLower (argText e1.arguments key)
        let v2 := pyLower (argText e2.arguments key)
        !(v1 == "") && !(v2 == "") &&
          (decide (List.IsInfix v1.data v2.data) ||
           decide (List.IsInfix v2.data v1.data)))
    else false

/-- `_has_related_intent(exec1, exec2)` (lines 429-443): at least one shared
meaningful term. -/
def has_related_intent (e1 e2 : Exec) : Bool :=
  let terms1 := extract_key_terms e1.arguments
  let terms2 := extract_key_terms e2.arguments
  if terms1 = ∅ ∨ terms2 = ∅ then false
  else decide (1 ≤ (terms1 ∩ terms2).card)

/-- The per-execution relevance test in the loop of
`_filter_relevant_executions` (lines 309-354): date window, exact tool,
related tool with temporal proximity or similar context, related intent,
or meaningful keyword overlap. -/
def isRelevantExecution (target : String) (tgt : Exec) (cutoff : ℤ) (e : Exec) :
    Bool :=
  if e.timestamp < cutoff then false
  else if e.tool == target then true
  else if (get_related_tools target).contains e.tool &&
          (decide (|e.timestamp - tgt.timestamp| ≤ 7200) || has_similar_context e tgt) then
    true
  else if has_related_intent e tgt then true
  else
    let targetKeywords := extract_key_terms tgt.arguments
    let execKeywords := extract_key_terms e.arguments
    if 1 ≤ (targetKeywords ∩ execKeywords).card ∧ targetKeywords ≠ ∅ ∧ execKeywords ≠ ∅ then
      decide (∃ kw ∈ execKeywords, kw ∈ targetKeywords ∧ 3 < kw.length)
    else false

/-- Timestamp-descending comparison (`sort(key=..., reverse=True)`). -/
def tsDesc (a b : Exec) : Prop := b.timestamp ≤ a.timestamp

instance : DecidableRel tsDesc := fun a b => by unfold tsDesc; infer_instance

instance : IsTotal Exec tsDesc := ⟨fun a b => le_total b.timestamp a.timestamp⟩

instance : IsTrans Exec tsDesc := ⟨fun _ _ _ hab hbc => le_trans hbc hab⟩

/-- `_filter_relevant_executions(executions, target_tool, days_back)`
(lines 288-358): anchor on the first listed execution of the target tool,
keep the relevant ones, sort by timestamp descending, cap at 20. -/
def filterRelevantExecutions (execs : List Exec) (target : String) (now : ℤ)
    (daysBack : ℕ) : List Exec :=
  match execs.find? (fun e => e.tool == target) with
  | none => []
  | some tgt =>
      (List.insertionSort tsDesc
        (execs.filter
          (isRelevantExecution target tgt (now - 86400 * daysBack)))).take 20

/-- Timestamp-ascending comparison used by `extract_sequence_patterns`. -/
def tsAsc (a b : Exec) : Prop := a.timestamp ≤ b.timestamp

instance : DecidableRel tsAsc := fun a b => by unfold tsAsc; infer_instance

instance : IsTotal Exec tsAsc := ⟨fun a b => le_total a.timestamp b.timestamp⟩

instance : IsTrans Exec tsAsc := ⟨fun _ _ _ hab hbc => le_trans hab hbc⟩

/-- The session-building loop of `extract_sequence_patterns`
(lines 118-140): `prev` is the previously visited execution, `cur` the
tool names of the run being accumulated. -/
def sessionsGo (prev : Exec) (cur : List String) : List Exec → List (List String)
  | [] => if 1 < cur.length then [cur] else []
  | e :: rest =>
      if e.timestamp - prev.timestamp ≤ 300 then
        sessionsGo e (cur ++ [e.tool]) rest
      else
        (if 1 < cur.length then [cur] else []) ++ sessionsGo e [e.tool] rest

/-- All sessions (runs of length ≥ 2) of a timestamp-sorted execution list. -/
def splitSessions : List Exec → List (List String)
  | [] => []
  | e :: rest => sessionsGo e [e.tool] rest

/-- The date-window filter plus ascending sort that
`extract_sequence_patterns` applies before building sessions. -/
def sequenceWindow (execs : List Exec) (now : ℤ) (daysBack : ℕ) : List Exec :=
  List.insertionSort tsAsc
    (execs.filter (fun e => decide (now - 86400 * daysBack ≤ e.timestamp)))

/-- The sessions `extract_sequence_patterns` mines from an execution list. -/
def sessionList (execs : List Exec) (now : ℤ) (daysBack : ℕ) :
    List (List String) :=
  splitSessions (sequenceWindow execs now daysBack)

/-- Adjacent tool pairs `(sequence[i], sequence[i+1])` of one session. -/
def adjacentPairs : List String → List (String × String)
  | a :: b :: rest => (a, b) :: adjacentPairs (b :: rest)
  | _ => []

/-- Adjacent tool triplets of one session. -/
def adjacentTriplets : List String → List (String × String × String)
  | a :: b :: c :: rest => (a, b, c) :: adjacentTriplets (b :: c :: rest)
  | _ => []

/-- The multiset of adjacent tool pairs the `tool_pairs` Counter tallies
(sessions shorter than 2 are skipped, lines 146-153). -/
def sessionPairs (execs : List Exec) (now : ℤ) (daysBack : ℕ) :
    List (String × String) :=
  (((sessionList execs now daysBack).filter (fun s => decide (2 ≤ s.length))).map
    adjacentPairs).flatten

/-- The multiset of adjacent tool triplets the `tool_triplets` Counter
tallies. -/
def sessionTriplets (execs : List Exec) (now : ℤ) (daysBack : ℕ) :
    List (String × String × String) :=
  (((sessionList execs now daysBack).filter (fun s => decide (2 ≤ s.length))).map
    adjacentTriplets).flatten

/-- `tool_pairs[pair]`: how often an adjacent pair occurs. -/
def toolPairCount (execs : List Exec) (now : ℤ) (daysBack : ℕ)
    (p : String × String) : ℕ :=
  (sessionPairs execs now daysBack).count p

/-- `tool_triplets[triplet]`. -/
def toolTripletCount (execs : List Exec) (now : ℤ) (daysBack : ℕ)
    (t : String × String × String) : ℕ :=
  (sessionTriplets execs now daysBack).count t

/-- `average_sequence_length` (line 164): mean session length, 0 with no
sessions. -/
def average_sequence_length (execs : List Exec) (now : ℤ) (daysBack : ℕ) : ℚ :=
  let ss := sessionList execs now daysBack
  if ss.isEmpty then 0
  else (((ss.map List.length).sum : ℕ) : ℚ) / (ss.length : ℚ)

/-- Maximal runs of consecutive executions at most 300 seconds apart —
the spec's description of a "session", stated directly as a recursion on
the sorted list. -/
def maximalRuns : List Exec → List (List Exec)
  | [] => []
  | [e] => [[e]]
  | e :: e2 :: rest =>
      match maximalRuns (e2 :: rest) with
      | [] => [[e]]
      | r :: rs =>
          if e2.timestamp - e.timestamp ≤ 300 then (e :: r) :: rs
          else [e] :: r :: rs

/-- The spec formulation of session mining: tool names of the maximal runs
of length at least 2. -/
def sessionsSpec (l : List Exec) : List (List String) :=
  ((maximalRuns l).map (fun r => r.map (fun e => e.tool))).filter
    (fun s => decide (2 ≤ s.length))

/-- `timestamp.hour` of an epoch-seconds timestamp. -/
def hourOf (ts : ℤ) : ℕ := ((ts % 86400) / 3600).toNat

/-- One `hourly_distribution[hour] += 1` step.  A `defaultdict(int)`
iterates in first-insertion order, which this association list preserves. -/
def bumpHour : List (ℕ × ℕ) → ℕ → List (ℕ × ℕ)
  | [], h => [(h, 1)]
  | (k, c) :: rest, h =>
      if k = h then (k, c + 1) :: rest else (k, c) :: bumpHour rest h

/-- The hour-of-day count distribution, keyed in first-appearance order. -/
def hourly_distribution (hours : List ℕ) : List (ℕ × ℕ) :=
  hours.foldl bumpHour []

/-- Count-descending comparison: `sorted(..., key=lambda x: x[1],
reverse=True)` is a stable sort on this relation. -/
def countDesc (a b : ℕ × ℕ) : Prop := b.2 ≤ a.2

instance : DecidableRel countDesc := fun a b => by unfold countDesc; infer_instance

instance : IsTotal (ℕ × ℕ) countDesc := ⟨fun a b => Nat.le_total b.2 a.2⟩

instance : IsTrans (ℕ × ℕ) countDesc := ⟨fun _ _ _ hab hbc => le_trans hbc hab⟩

/-- `peak_hours` of `extract_temporal_patterns` (lines 66-69): the hourly
distribution of the windowed executions, stably sorted by count descending,
truncated to 3. -/
def extract_peak_hours (execs : List Exec) (now : ℤ) (daysBack : ℕ) :
    List (ℕ × ℕ) :=
  (List.insertionSort countDesc (hourly_distribution
    ((execs.filter (fun e => decide (now - 86400 * daysBack ≤ e.timestamp))).map
      (fun e => hourOf e.timestamp)))).take 3

/-- Count descending with ties by hour ascending — the ranking the claim
asserts, written from the claim's words for comparison with
`extract_peak_hours`. -/
def countDescHourAsc (a b : ℕ × ℕ) : Prop :=
  b.2 < a.2 ∨ (a.2 = b.2 ∧ a.1 ≤ b.1)

instance : DecidableRel countDescHourAsc := fun a b => by
  unfold countDescHourAsc; infer_instance

/-- The claimed peak-hour ranking: top 3 by count descending, ties broken
by hour ascending. -/
def peak_hours_claimed (execs : List Exec) (now : ℤ) (daysBack : ℕ) :
    List (ℕ × ℕ) :=
  (List.insertionSort countDescHourAsc (hourly_distribution
    ((execs.filter (fun e => decide (now - 86400 * daysBack ≤ e.timestamp))).map
      (fun e => hourOf e.timestamp)))).take 3

/-- One proposed memory modification as the recognizer consumes it:
`{action, id, memory}` with absent fields `None`. -/
structure ModProposal where
  action : String
  targetId : Option Nat
  memoryText : Option String
  deriving DecidableEq, Repr

/-- Python truthiness of `memory_text`: present and non-empty. -/
def truthyText : Option String → Option String
  | some t => if t = "" then none else some t
  | none => none

/-- Python truthiness of `memory_id`: present and non-zero. -/
def truthyId : Option Nat → Option Nat
  | some 0 => none
  | some (n + 1) => some (n + 1)
  | none => none

/-- One iteration of `_save_insights_to_memory` (pattern_recognizer.py
lines 138-193): dispatch a proposal to the store; the two booleans are
"recorded in saved_insights" and "recorded in failed_saves" (an
unrecognized action, or one with falsy fields, records neither). -/
def apply_modification (now : ℤ) (s : Store) (mod : ModProposal) :
    Store × Bool × Bool :=
  if mod.action = "create" then
    match truthyText mod.memoryText with
    | some txt => ((add_memory s txt (1/2) now).1, true, false)
    | none => (s, false, false)
  else if mod.action = "reinforce" then
    match truthyId mod.targetId with
    | some i =>
        let r := reinforce_memory s i (1/10) now
        (r.1, r.2, !r.2)
    | none => (s, false, false)
  else if mod.action = "weaken" then
    match truthyId mod.targetId with
    | some i =>
        let r := weaken_memory s i (2/10) (1/10) now
        match r.2 with
        | .notFound => (r.1, false, true)
        | _ => (r.1, true, false)
    | none => (s, false, false)
  else if mod.action = "update_content" then
    match truthyId mod.targetId, truthyText mod.memoryText with
    | some i, some txt =>
        let r := update_memory_content s i txt now
        (r.1, r.2, !r.2)
    | _, _ => (s, false, false)
  else (s, false, false)

/-- `_save_insights_to_memory`: fold the proposals over the store, counting
saved and failed applications. -/
def save_insights (s : Store) (mods : List ModProposal) (now : ℤ) :
    Store × ℕ × ℕ :=
  mods.foldl (fun acc mod =>
    let r := apply_modification now acc.1 mod
    (r.1, acc.2.1 + (if r.2.1 then 1 else 0), acc.2.2 + (if r.2.2 then 1 else 0)))
    (s, 0, 0)

/-- Target-tool resolution of `extract_similar_tool_patterns`
(lines 210-213): a falsy target falls back to the most recent execution;
with neither, there is no target. -/
def resolveTargetTool (execs : List Exec) (lastTool : Option String) :
    Option String :=
  let given := match lastTool with
    | some t => if t = "" then none else some t
    | none => none
  match given with
  | some t => some t
  | none => execs.head?.map (fun e => e.tool)

/-- The `total_executions` the recognizer reads out of the similar-tool
summary (pattern_recognizer.py line 59): the size of the relevance-filtered
set, or 0 when no target tool can be resolved. -/
def totalRelevantExecutions (execs : List Exec) (lastTool : Option String)
    (now : ℤ) (daysBack : ℕ) : ℕ :=
  match resolveTargetTool execs lastTool with
  | none => 0
  | some t => (filterRelevantExecutions execs t now daysBack).length

/-- The outcome of the external analysis step as `analyze_patterns` reports
it: `{success: false, error}` or a parsed modification list. -/
inductive AnalysisResult where
  | failure (err : String)
  | success (mods : List ModProposal)
  deriving DecidableEq, Repr

/-- What the external call produced: a raised error (connection failure,
timeout, cancellation) or a response with optional text. -/
inductive GeminiCall where
  | callError (err : String)
  | callResponse (text : Option String)
  deriving DecidableEq, Repr

/-- `LLMPatternAnalyzer.analyze_patterns` (pattern_analyzer.py lines 41-88):
an external-call error or an empty response is a failure; otherwise the
stripped text is parsed, and a parse error is a failure carrying its
message.  The parser is a parameter (it wraps `json.loads` plus the
`memory_modifications` extraction). -/
def analyze_patterns (call : GeminiCall)
    (parse : String → Except String (List ModProposal)) : AnalysisResult :=
  match call with
  | .callError e => .failure e
  | .callResponse none => .failure "Empty response from Gemini"
  | .callResponse (some txt) =>
      if txt = "" then .failure "Empty response from Gemini"
      else
        match parse (pyTrim txt) with
        | .error e => .failure e
        | .ok mods => .success mods

/-- The result variants of `recognize_patterns_async`. -/
inductive RecognizeOutcome where
  | skipped (totalExecutions : ℕ)
  | failed (err : String)
  | succeeded (insightsSaved : ℕ) (memoriesCleaned : ℕ)
  deriving DecidableEq, Repr

/-- `recognize_patterns_async` (pattern_recognizer.py lines 43-118) with
the throttle disabled as in the source (`_should_skip_analysis` returns
`False`): skip below 3 relevant executions; otherwise consult the analysis
outcome; on failure report it and stop; on success apply the proposals and
run the low-confidence sweep at threshold 0.1. -/
def recognize_patterns (s : Store) (execs : List Exec) (lastTool : Option String)
    (now : ℤ) (daysToAnalyze : ℕ) (analysis : AnalysisResult) :
    Store × RecognizeOutcome :=
  let total := totalRelevantExecutions execs lastTool now daysToAnalyze
  if total < 3 then (s, .skipped total)
  else
    match analysis with
    | .failure err => (s, .failed err)
    | .success mods =>
        let applied := save_insights s mods now
        let cleaned := cleanup_low_confidence_memories applied.1 (1/10)
        (cleaned.1, .succeeded applied.2.1 cleaned.2)

/-! ### Helper lemmas about the memory store -/

lemma findRow_mem {s : Store} {id : Nat} {m : Mem} (h : s.findRow id = some m) :
    m ∈ s.rows ∧ m.id = id := by
  unfold Store.findRow at h
  refine ⟨List.mem_of_find?_eq_some h, ?_⟩
  have := List.find?_some h
  simpa using this

lemma findRow_none {s : Store} {id : Nat} (h : s.findRow id = none) :
    ∀ m ∈ s.rows, m.id ≠ id := by
  unfold Store.findRow at h
  intro m hm
  have := List.find?_eq_none.mp h m hm
  simpa using this

lemma reinforceStep_bounds {f c : ℚ} (hf0 : 0 ≤ f) (hc0 : 0 ≤ c) (hc1 : c ≤ 1) :
    0 ≤ reinforceStep f c ∧ reinforceStep f c ≤ 1 := by
  unfold reinforceStep
  refine ⟨le_min (by norm_num) ?_, min_le_left _ _⟩
  nlinarith

lemma weakenStep_bounds {f c : ℚ} (hf0 : 0 ≤ f) (hf1 : f ≤ 1) (hc0 : 0 ≤ c)
    (hc1 : c ≤ 1) : 0 ≤ weakenStep f c ∧ weakenStep f c ≤ 1 := by
  unfold weakenStep
  refine ⟨le_max_left _ _, max_le (by norm_num) ?_⟩
  nlinarith

lemma applyOp_bounded {s : Store} {op : MemOp} (h0 : confidencesBounded s)
    (hop : op.valid) : confidencesBounded (applyOp s op) := by
  cases op with
  | add text c now =>
      intro m hm
      simp only [applyOp, add_memory, List.mem_append, List.mem_singleton] at hm
      rcases hm with hm | hm
      · exact h0 m hm
      · subst hm; exact hop
  | reinforce id f now =>
      intro m hm
      simp only [applyOp, reinforce_memory] at hm
      cases hfind : s.findRow id with
      | none => rw [hfind] at hm; exact h0 m hm
      | some m0 =>
          rw [hfind] at hm
          simp only [List.mem_map] at hm
          obtain ⟨r, hr, hmr⟩ := hm
          obtain ⟨hm0, _⟩ := findRow_mem hfind
          obtain ⟨h00, h01⟩ := h0 m0 hm0
          by_cases hid : r.id = id
          · rw [if_pos hid] at hmr
            subst hmr
            exact reinforceStep_bounds hop.1 h00 h01
          · rw [if_neg hid] at hmr
            subst hmr
            exact h0 r hr
  | weaken id f t now =>
      intro m hm
      simp only [applyOp, weaken_memory] at hm
      cases hfind : s.findRow id with
      | none => rw [hfind] at hm; exact h0 m hm
      | some m0 =>
          rw [hfind] at hm
          dsimp only at hm
          obtain ⟨hm0, _⟩ := findRow_mem hfind
          obtain ⟨h00, h01⟩ := h0 m0 hm0
          by_cases hlt : weakenStep f m0.confidence < t
          · rw [if_pos hlt] at hm
            exact h0 m (List.mem_of_mem_filter hm)
          · rw [if_neg hlt] at hm
            simp only [List.mem_map] at hm
            obtain ⟨r, hr, hmr⟩ := hm
            by_cases hid : r.id = id
            · rw [if_pos hid] at hmr
              subst hmr
              exact weakenStep_bounds hop.1 hop.2 h00 h01
            · rw [if_neg hid] at hmr
              subst hmr
              exact h0 r hr
  | updateContent id text now =>
      intro m hm
      simp only [applyOp, update_memory_content, List.mem_map] at hm
      obtain ⟨r, hr, hmr⟩ := hm
      by_cases hid : r.id = id
      · rw [if_pos hid] at hmr; subst hmr; exact h0 r hr
      · rw [if_neg hid] at hmr; subst hmr; exact h0 r hr
  | cleanup t =>
      intro m hm
      simp only [applyOp, cleanup_low_confidence_memories] at hm
      exact h0 m (List.mem_of_mem_filter hm)

lemma applyOps_bounded {s : Store} {ops : List MemOp} (h0 : confidencesBounded s)
    (hops : ∀ op ∈ ops, op.valid) : confidencesBounded (applyOps s ops) := by
  induction ops generalizing s with
  | nil => exact h0
  | cons op rest ih =>
      exact ih (applyOp_bounded h0 (hops op (List.mem_cons_self op rest)))
        (fun o ho => hops o (List.mem_cons_of_mem _ ho))

lemma weaken_deleted_absent (s : Store) (id : Nat) (f t : ℚ) (now : ℤ)
    (h : (weaken_memory s id f t now).2 = .deleted) :
    ∀ m ∈ (weaken_memory s id f t now).1.rows, m.id ≠ id := by
  intro m hm
  unfold weaken_memory at h hm
  cases hfind : s.findRow id with
  | none => rw [hfind] at h; exact absurd h (by simp)
  | some m0 =>
      rw [hfind] at h hm
      dsimp only at h hm
      by_cases hlt : weakenStep f m0.confidence < t
      · rw [if_pos hlt] at hm
        have := List.of_mem_filter hm
        simpa using this
      · rw [if_neg hlt] at h
        exact absurd h (by simp)

lemma weaken_kept_ge (s : Store) (id : Nat) (f t : ℚ) (now : ℤ) :
    ∀ m ∈ (weaken_memory s id f t now).1.rows, m.id = id → t ≤ m.confidence := by
  intro m hm hid
  unfold weaken_memory at hm
  cases hfind : s.findRow id with
  | none =>
      rw [hfind] at hm
      exact absurd hid (findRow_none hfind m hm)
  | some m0 =>
      rw [hfind] at hm
      dsimp only at hm
      by_cases hlt : weakenStep f m0.confidence < t
      · rw [if_pos hlt] at hm
        have := List.of_mem_filter hm
        simp at this
        exact absurd hid this
      · rw [if_neg hlt] at hm
        simp only [List.mem_map] at hm
        obtain ⟨r, hr, hmr⟩ := hm
        by_cases hrid : r.id = id
        · rw [if_pos hrid] at hmr
          subst hmr
          simpa using le_of_not_lt hlt
        · rw [if_neg hrid] at hmr
          subst hmr
          exact absurd hid hrid

lemma applyOp_fresh {s : Store} {id : Nat} (op : MemOp) (hlt : id < s.nextId)
    (habs : ∀ r ∈ s.rows, r.id ≠ id) :
    id < (applyOp s op).nextId ∧ ∀ r ∈ (applyOp s op).rows, r.id ≠ id := by
  cases op with
  | add text c now =>
      refine ⟨Nat.lt_succ_of_lt hlt, ?_⟩
      intro r hr
      simp only [applyOp, add_memory, List.mem_append, List.mem_singleton] at hr
      rcases hr with hr | hr
      · exact habs r hr
      · subst hr
        show s.nextId ≠ id
        omega
  | reinforce i f now =>
      refine ⟨?_, ?_⟩
      · simp only [applyOp, reinforce_memory]
        cases hfind : s.findRow i <;> simp [hfind, hlt]
      · intro r hr
        simp only [applyOp, reinforce_memory] at hr
        cases hfind : s.findRow i with
        | none => rw [hfind] at hr; exact habs r hr
        | some m0 =>
            rw [hfind] at hr
            simp only [List.mem_map] at hr
            obtain ⟨r0, hr0, hrr⟩ := hr
            by_cases hid : r0.id = i
            · rw [if_pos hid] at hrr; subst hrr; simpa [hid] using habs r0 hr0
            · rw [if_neg hid] at hrr; subst hrr; exact habs r0 hr0
  | weaken i f t now =>
      refine ⟨?_, ?_⟩
      · simp only [applyOp, weaken_memory]
        cases hfind : s.findRow i with
        | none => simpa [hfind] using hlt
        | some m0 =>
            by_cases hc : weakenStep f m0.confidence < t
            · simpa [hc] using hlt
            · simpa [hc] using hlt
      · intro r hr
        simp only [applyOp, weaken_memory] at hr
        cases hfind : s.findRow i with
        | none => rw [hfind] at hr; exact habs r hr
        | some m0 =>
            rw [hfind] at hr
            dsimp only at hr
            by_cases hc : weakenStep f m0.confidence < t
            · rw [if_pos hc] at hr
              exact habs r (List.mem_of_mem_filter hr)
            · rw [if_neg hc] at hr
              simp only [List.mem_map] at hr
              obtain ⟨r0, hr0, hrr⟩ := hr
              by_cases hid : r0.id = i
              · rw [if_pos hid] at hrr; subst hrr; simpa [hid] using habs r0 hr0
              · rw [if_neg hid] at hrr; subst hrr; exact habs r0 hr0
  | updateContent i text now =>
      refine ⟨hlt, ?_⟩
      intro r hr
      simp only [applyOp, update_memory_content, List.mem_map] at hr
      obtain ⟨r0, hr0, hrr⟩ := hr
      by_cases hid : r0.id = i
      · rw [if_pos hid] at hrr; subst hrr; simpa [hid] using habs r0 hr0
      · rw [if_neg hid] at hrr; subst hrr; exact habs r0 hr0
  | cleanup t =>
      refine ⟨hlt, ?_⟩
      intro r hr
      simp only [applyOp, cleanup_low_confidence_memories] at hr
      exact habs r (List.mem_of_mem_filter hr)

lemma applyOps_fresh {s : Store} {id : Nat} (ops : List MemOp)
    (hlt : id < s.nextId) (habs : ∀ r ∈ s.rows, r.id ≠ id) :
    ∀ r ∈ (applyOps s ops).rows, r.id ≠ id := by
  induction ops generalizing s with
  | nil => exact habs
  | cons op rest ih =>
      obtain ⟨h1, h2⟩ := applyOp_fresh op hlt habs
      exact ih h1 h2

lemma mem_of_mem_get_memories {s : Store} {minConf : ℚ} {lim : Option Nat}
    {r : Mem} (h : r ∈ get_memories s minConf lim) : r ∈ s.rows := by
  have base : ∀ {x : Mem},
      x ∈ List.insertionSort memBefore
        (s.rows.filter (fun m => decide (minConf ≤ m.confidence))) → x ∈ s.rows := by
    intro x hx
    exact List.mem_of_mem_filter
      ((List.perm_insertionSort memBefore _).mem_iff.mp hx)
  cases lim with
  | none => exact base h
  | some l =>
      unfold get_memories at h
      dsimp only at h
      by_cases h0 : l = 0
      · rw [if_pos h0] at h; exact base h
      · rw [if_neg h0] at h; exact base (List.mem_of_mem_take h)

/-! ### C1 -/

/-- C1.  Confidence bounds invariant: starting from a store whose
confidences lie in [0,1], any sequence of store operations whose creation
confidences and reinforce/weaken factors lie in [0,1] keeps every stored
confidence in [0,1]; moreover a `weaken_memory` call on the resulting store
either deletes the row (which is then gone) or leaves it with confidence at
least the cleanup threshold — a memory never lingers below the threshold
after the call that dropped it. -/
theorem confidence_bounds_invariant (s : Store) (ops : List MemOp)
    (h0 : confidencesBounded s) (hops : ∀ op ∈ ops, op.valid) :
    confidencesBounded (applyOps s ops) ∧
    ∀ (id : Nat) (f t : ℚ) (now : ℤ),
      ((weaken_memory (applyOps s ops) id f t now).2 = .deleted →
        ∀ m ∈ (weaken_memory (applyOps s ops) id f t now).1.rows, m.id ≠ id) ∧
      (∀ m ∈ (weaken_memory (applyOps s ops) id f t now).1.rows,
        m.id = id → t ≤ m.confidence) := by
  refine ⟨applyOps_bounded h0 hops, ?_⟩
  intro id f t now
  exact ⟨weaken_deleted_absent _ id f t now, weaken_kept_ge _ id f t now⟩

/-- A one-row demonstration store for the C1 witness. -/
def demoStoreC1 : Store := ⟨[⟨1, "user listens to EDM", 1/2, 0⟩], 2⟩

/-- A demonstration operation sequence for the C1 witness. -/
def demoOpsC1 : List MemOp :=
  [.reinforce 1 (1/10) 1, .weaken 1 (2/10) (1/10) 2, .add "user codes at night" (1/2) 3]

theorem confidence_bounds_invariant_witness :
    confidencesBounded (applyOps demoStoreC1 demoOpsC1) ∧ demoStoreC1.nextId = 2 :=
  ⟨(confidence_bounds_invariant demoStoreC1 demoOpsC1
      (by norm_num [confidencesBounded, demoStoreC1])
      (by norm_num [demoOpsC1, MemOp.valid])).1, rfl⟩

/-! ### C2 -/

/-- The 0.5-confidence store of the weaken-then-evict scenario. -/
def scenarioStore : Store := ⟨[⟨1, "user prefers jazz", 1/2, 0⟩], 2⟩

/-- First weaken call of the scenario (factor 0.5, threshold 0.1). -/
def weakenStage1 : Store × WeakenResult := weaken_memory scenarioStore 1 (1/2) (1/10) 0

/-- Second weaken call of the scenario. -/
def weakenStage2 : Store × WeakenResult := weaken_memory weakenStage1.1 1 (1/2) (1/10) 0

/-- Third weaken call of the scenario. -/
def weakenStage3 : Store × WeakenResult := weaken_memory weakenStage2.1 1 (1/2) (1/10) 0

lemma weakenStage1_eq :
    weakenStage1 = (⟨[⟨1, "user prefers jazz", 1/4, 0⟩], 2⟩, .updated) := by
  norm_num [weakenStage1, weaken_memory, scenarioStore, Store.findRow, weakenStep,
    List.find?]

lemma weakenStage2_eq :
    weakenStage2 = (⟨[⟨1, "user prefers jazz", 1/8, 0⟩], 2⟩, .updated) := by
  norm_num [weakenStage2, weakenStage1_eq, weaken_memory, Store.findRow, weakenStep,
    List.find?]

lemma weakenStage3_eq : weakenStage3 = (⟨[], 2⟩, .deleted) := by
  norm_num [weakenStage3, weakenStage2_eq, weaken_memory, Store.findRow, weakenStep,
    List.find?]

/-- C2.  `weaken_memory` computes `max(0, old * (1 - factor))`; it returns
`"deleted"` (and the id is absent from every later `get_memories`, through
any further operation sequence) exactly when the new value is below the
cleanup threshold, returns `True` with the new value stored otherwise, and
returns `False` on an unknown id.  A memory at confidence 0.5 weakened
three times with factor 0.5 is updated to 0.25, then 0.125, and deleted on
the third call, which alone returns `"deleted"`. -/
theorem weaken_memory_spec (s : Store) (id : Nat) (f t : ℚ) (now : ℤ)
    (hwf : ∀ r ∈ s.rows, r.id < s.nextId) :
    (s.findRow id = none → weaken_memory s id f t now = (s, .notFound)) ∧
    (∀ m, s.findRow id = some m →
      (weakenStep f m.confidence < t →
        (weaken_memory s id f t now).2 = .deleted ∧
        ∀ ops : List MemOp, ∀ minConf lim,
          ∀ r ∈ get_memories (applyOps (weaken_memory s id f t now).1 ops) minConf lim,
            r.id ≠ id) ∧
      (¬ weakenStep f m.confidence < t →
        (weaken_memory s id f t now).2 = .updated ∧
        ∀ r ∈ (weaken_memory s id f t now).1.rows, r.id = id →
          r.confidence = weakenStep f m.confidence)) ∧
    (weakenStage1.2 = .updated ∧
      (weakenStage1.1.findRow 1).map Mem.confidence = some (1/4) ∧
      weakenStage2.2 = .updated ∧
      (weakenStage2.1.findRow 1).map Mem.confidence = some (1/8) ∧
      weakenStage3.2 = .deleted ∧
      weakenStage3.1.rows = [] ∧
      get_memories weakenStage3.1 0 none = []) := by
  refine ⟨?_, ?_, ?_⟩
  · intro h
    unfold weaken_memory
    rw [h]
  · intro m hm
    have hmem := findRow_mem hm
    constructor
    · intro hdrop
      have hres : weaken_memory s id f t now =
          (⟨s.rows.filter (fun r => r.id != id), s.nextId⟩, .deleted) := by
        unfold weaken_memory
        rw [hm]
        dsimp only
        rw [if_pos hdrop]
      refine ⟨by rw [hres], ?_⟩
      intro ops minConf lim r hr
      have habs : ∀ r ∈ (weaken_memory s id f t now).1.rows, r.id ≠ id := by
        rw [hres]
        intro r hr
        have := List.of_mem_filter hr
        simpa using this
      have hid : id < (weaken_memory s id f t now).1.nextId := by
        rw [hres]
        exact hmem.2 ▸ hwf m hmem.1
      exact applyOps_fresh ops hid habs r (mem_of_mem_get_memories hr)
    · intro hkeep
      have hres : (weaken_memory s id f t now).2 = .updated := by
        unfold weaken_memory
        rw [hm]
        dsimp only
        rw [if_neg hkeep]
      refine ⟨hres, ?_⟩
      intro r hr hrid
      unfold weaken_memory at hr
      rw [hm] at hr
      dsimp only at hr
      rw [if_neg hkeep] at hr
      simp only [List.mem_map] at hr
      obtain ⟨r0, hr0, hrr⟩ := hr
      by_cases h0 : r0.id = id
      · rw [if_pos h0] at hrr; subst hrr; rfl
      · rw [if_neg h0] at hrr; subst hrr; exact absurd hrid h0
  · refine ⟨by rw [weakenStage1_eq], ?_, by rw [weakenStage2_eq], ?_,
      by rw [weakenStage3_eq], by rw [weakenStage3_eq], ?_⟩
    · rw [weakenStage1_eq]
      simp [Store.findRow, List.find?]
    · rw [weakenStage2_eq]
      simp [Store.findRow, List.find?]
    · rw [weakenStage3_eq]
      simp [get_memories]

theorem weaken_memory_spec_witness :
    weakenStage1.2 = .updated ∧
      (weakenStage1.1.findRow 1).map Mem.confidence = some (1/4) ∧
      weakenStage2.2 = .updated ∧
      (weakenStage2.1.findRow 1).map Mem.confidence = some (1/8) ∧
      weakenStage3.2 = .deleted ∧
      weakenStage3.1.rows = [] ∧
      get_memories weakenStage3.1 0 none = [] :=
  (weaken_memory_spec scenarioStore 1 (1/2) (1/10) 0 (by decide)).2.2

/-! ### C3 -/

/-- The confidence sequence of repeated `reinforce_memory(id, 0.1)`. -/
def reinforceIter (c : ℚ) : ℕ → ℚ
  | 0 => c
  | n + 1 => reinforceStep (1/10) (reinforceIter c n)

lemma reinforceStep_of_lt_one {c : ℚ} (h : c < 1) :
    reinforceStep (1/10) c = c + (1/10) * (1 - c) := by
  unfold reinforceStep
  exact min_eq_right (by nlinarith)

lemma reinforceIter_closed {c : ℚ} (h : c < 1) (n : ℕ) :
    reinforceIter c n < 1 ∧ 1 - reinforceIter c n = (9/10 : ℚ) ^ n * (1 - c) := by
  induction n with
  | zero => exact ⟨h, by simp [reinforceIter]⟩
  | succ n ih =>
      obtain ⟨hlt, heq⟩ := ih
      have hstep : reinforceIter c (n + 1) =
          reinforceIter c n + (1/10) * (1 - reinforceIter c n) := by
        simp only [reinforceIter]
        exact reinforceStep_of_lt_one hlt
      constructor
      · have hpos : (0 : ℚ) < (9/10 : ℚ) ^ (n + 1) * (1 - c) :=
          mul_pos (pow_pos (by norm_num) _) (by linarith)
        have : 1 - reinforceIter c (n + 1) = (9/10 : ℚ) ^ (n + 1) * (1 - c) := by
          rw [hstep]; ring_nf; rw [pow_succ] at *; nlinarith [heq]
        linarith [this ▸ hpos]
      · rw [hstep, pow_succ]
        nlinarith [heq]

/-- C3.  `reinforce_memory` returns `False` on an unknown id and otherwise
stores `min(1, old + factor * (1 - old))`; starting from any confidence in
[0,1), repeated `reinforce_memory(id, 0.1)` strictly increases the
confidence, never reaches 1, and approaches 1 in the limit (within any
positive ε after finitely many calls). -/
theorem reinforce_memory_spec (s : Store) (id : Nat) (f : ℚ) (now : ℤ) :
    (s.findRow id = none → reinforce_memory s id f now = (s, false)) ∧
    (∀ m, s.findRow id = some m →
      (reinforce_memory s id f now).2 = true ∧
      ∀ r ∈ (reinforce_memory s id f now).1.rows, r.id = id →
        r.confidence = reinforceStep f m.confidence) ∧
    (∀ c : ℚ, 0 ≤ c → c < 1 → ∀ n : ℕ,
      reinforceIter c n < reinforceIter c (n + 1) ∧
      reinforceIter c n < 1 ∧
      1 - reinforceIter c n = (9/10 : ℚ) ^ n * (1 - c)) ∧
    (∀ c : ℚ, 0 ≤ c → c < 1 → ∀ ε : ℚ, 0 < ε →
      ∃ N : ℕ, 1 - reinforceIter c N < ε) := by
  refine ⟨?_, ?_, ?_, ?_⟩
  · intro h
    unfold reinforce_memory
    rw [h]
  · intro m hm
    have hres : (reinforce_memory s id f now).2 = true := by
      unfold reinforce_memory
      rw [hm]
    refine ⟨hres, ?_⟩
    intro r hr hrid
    unfold reinforce_memory at hr
    rw [hm] at hr
    dsimp only at hr
    simp only [List.mem_map] at hr
    obtain ⟨r0, hr0, hrr⟩ := hr
    by_cases h0 : r0.id = id
    · rw [if_pos h0] at hrr; subst hrr; rfl
    · rw [if_neg h0] at hrr; subst hrr; exact absurd hrid h0
  · intro c _ hc1 n
    obtain ⟨hlt, heq⟩ := reinforceIter_closed hc1 n
    refine ⟨?_, hlt, heq⟩
    have hstep : reinforceIter c (n + 1) =
        reinforceIter c n + (1/10) * (1 - reinforceIter c n) := by
      simp only [reinforceIter]
      exact reinforceStep_of_lt_one hlt
    rw [hstep]
    nlinarith
  · intro c hc0 hc1 ε hε
    obtain ⟨N, hN⟩ := exists_pow_lt_of_lt_one hε (by norm_num : (9/10 : ℚ) < 1)
    refine ⟨N, ?_⟩
    have heq := (reinforceIter_closed hc1 N).2
    have hb : (9/10 : ℚ) ^ N * (1 - c) ≤ (9/10 : ℚ) ^ N * 1 :=
      mul_le_mul_of_nonneg_left (by linarith) (pow_nonneg (by norm_num) _)
    rw [heq]
    calc (9/10 : ℚ) ^ N * (1 - c) ≤ (9/10 : ℚ) ^ N * 1 := hb
      _ = (9/10 : ℚ) ^ N := mul_one _
      _ < ε := hN

/-! ### C8 -/

/-- C8 counterexample.  `add_memory` performs no range validation: a call
with confidence 3/2 writes a row carrying exactly that out-of-range
confidence. -/
theorem add_memory_out_of_range_counterexample :
    ((add_memory ⟨[], 1⟩ "user is three meters tall" (3/2) 0).1.rows.map
      Mem.confidence) = [3/2] ∧ ¬ ((3/2 : ℚ) ≤ 1) := by
  refine ⟨rfl, by norm_num⟩

/-- C8 amended.  `add_memory` always succeeds and assigns a fresh id, but
the confidence is stored exactly as passed, with no validation: a call with
confidence outside [0,1] writes a row with that out-of-range confidence. -/
theorem add_memory_always_succeeds (s : Store) (text : String) (conf : ℚ)
    (now : ℤ) (hwf : ∀ r ∈ s.rows, r.id < s.nextId) :
    (add_memory s text conf now).2 = s.nextId ∧
    (∀ r ∈ s.rows, r.id ≠ (add_memory s text conf now).2) ∧
    (⟨s.nextId, text, conf, now⟩ : Mem) ∈ (add_memory s text conf now).1.rows := by
  refine ⟨rfl, ?_, ?_⟩
  · intro r hr
    exact Nat.ne_of_lt (hwf r hr)
  · simp [add_memory]

theorem add_memory_always_succeeds_witness :
    (add_memory ⟨[], 1⟩ "note" (3/2) 0).2 = 1 ∧
    (⟨1, "note", 3/2, 0⟩ : Mem) ∈ (add_memory ⟨[], 1⟩ "note" (3/2) 0).1.rows :=
  ⟨(add_memory_always_succeeds ⟨[], 1⟩ "note" (3/2) 0 (by simp)).1,
   (add_memory_always_succeeds ⟨[], 1⟩ "note" (3/2) 0 (by simp)).2.2⟩

/-! ### C10 -/

/-- C10.  `search_similar_memories` returns at most 20 rows, whatever the
query and confidence floor, even when more rows satisfy both the confidence
threshold and the substring match.  (The hypothesis keeps the query
non-degenerate: with no terms at all the Python builds malformed SQL and
raises instead of returning.) -/
theorem search_similar_memories_cap (s : Store) (query : String)
    (minConfidence : ℚ) (hterms : pySplit (pyLower query) ≠ []) :
    (search_similar_memories s query minConfidence).length ≤ 20 := by
  unfold search_similar_memories
  exact List.length_take_le 20 _

theorem search_similar_memories_cap_witness :
    (search_similar_memories ⟨[], 1⟩ "coffee shop" (3/10)).length ≤ 20 :=
  search_similar_memories_cap ⟨[], 1⟩ "coffee shop" (3/10) (by decide)

/-! ### C4 -/

lemma isRelevant_of_target {target : String} {tgt e : Exec} {cutoff : ℤ}
    (htool : e.tool = target) (hts : cutoff ≤ e.timestamp) :
    isRelevantExecution target tgt cutoff e = true := by
  unfold isRelevantExecution
  rw [if_neg (not_lt.mpr hts)]
  simp [htool]

/-- C4 amended.  `_filter_relevant_executions` returns at most 20
executions, without duplicates (for a duplicate-free log), sorted by
timestamp descending; it includes every execution of the exact target tool
inside the lookback window whenever the relevant-candidate set fits in the
cap of 20 — with more than 20 candidates the cap can drop such executions
(see the counterexample). -/
theorem filter_relevant_amended (execs : List Exec) (target : String)
    (now : ℤ) (daysBack : ℕ) (hnd : execs.Nodup) :
    (filterRelevantExecutions execs target now daysBack).length ≤ 20 ∧
    (filterRelevantExecutions execs target now daysBack).Nodup ∧
    List.Sorted tsDesc (filterRelevantExecutions execs target now daysBack) ∧
    ∀ tgt, execs.find? (fun e => e.tool == target) = some tgt →
      (execs.filter
        (isRelevantExecution target tgt (now - 86400 * daysBack))).length ≤ 20 →
      ∀ e ∈ execs, e.tool = target → now - 86400 * daysBack ≤ e.timestamp →
        e ∈ filterRelevantExecutions execs target now daysBack := by
  unfold filterRelevantExecutions
  cases hfind : execs.find? (fun e => e.tool == target) with
  | none =>
      refine ⟨by simp, by simp, by simp, ?_⟩
      intro tgt htgt
      exact absurd htgt (by simp)
  | some tgt0 =>
      have hperm := List.perm_insertionSort tsDesc
        (execs.filter (isRelevantExecution target tgt0 (now - 86400 * daysBack)))
      refine ⟨List.length_take_le _ _, ?_, ?_, ?_⟩
      · exact ((hperm.symm.nodup (hnd.filter _)).sublist (List.take_sublist _ _))
      · exact (List.sorted_insertionSort tsDesc _).sublist (List.take_sublist _ _)
      · intro tgt htgt hlen e he htool hts
        obtain rfl : tgt0 = tgt := by injection htgt
        have hmem : e ∈ execs.filter
            (isRelevantExecution target tgt0 (now - 86400 * daysBack)) :=
          List.mem_filter.mpr ⟨he, isRelevant_of_target htool hts⟩
        dsimp only
        rw [List.take_of_length_le (by rw [hperm.length_eq]; exact hlen)]
        exact hperm.mem_iff.mpr hmem

/-- 21 executions of the same tool inside the window: one more than the
relevance cap. -/
def exec21 : List Exec := (List.range 21).map (fun i => ⟨i, "shell", (i : ℤ), []⟩)

/-- C4 counterexample.  With 21 in-window executions of the target tool,
the filter returns only 20 and the oldest target execution is missing, so
"always includes every execution of the exact target tool within the
lookback window" fails as stated. -/
theorem filter_relevant_cap_counterexample :
    (⟨0, "shell", 0, []⟩ : Exec) ∈ exec21 ∧
    (⟨0, "shell", 0, []⟩ : Exec).tool = "shell" ∧
    (20 : ℤ) - 86400 * 30 ≤ (⟨0, "shell", 0, []⟩ : Exec).timestamp ∧
    (filterRelevantExecutions exec21 "shell" 20 30).length = 20 ∧
    (⟨0, "shell", 0, []⟩ : Exec) ∉ filterRelevantExecutions exec21 "shell" 20 30 := by
  decide

theorem filter_relevant_amended_witness :
    (filterRelevantExecutions exec21 "shell" 20 30).length ≤ 20 ∧
    List.Sorted tsDesc (filterRelevantExecutions exec21 "shell" 20 30) :=
  ⟨(filter_relevant_amended exec21 "shell" 20 30 (by decide)).1,
   (filter_relevant_amended exec21 "shell" 20 30 (by decide)).2.2.1⟩

/-! ### C5 -/

lemma maximalRuns_cons (x : Exec) (l : List Exec) :
    ∃ t rs, maximalRuns (x :: l) = (x :: t) :: rs := by
  cases l with
  | nil => exact ⟨[], [], rfl⟩
  | cons y ys =>
      cases h : maximalRuns (y :: ys) with
      | nil => exact ⟨[], [], by simp [maximalRuns, h]⟩
      | cons r rs =>
          by_cases hgap : y.timestamp - x.timestamp ≤ 300
          · exact ⟨r, rs, by simp [maximalRuns, h, hgap]⟩
          · exact ⟨[], r :: rs, by simp [maximalRuns, h, hgap]⟩

lemma sessionsGo_spec (rest : List Exec) :
    ∀ (prev : Exec) (cur : List String) (t : List Exec) (rs : List (List Exec)),
      maximalRuns (prev :: rest) = (prev :: t) :: rs →
      sessionsGo prev cur rest =
        ((cur ++ t.map (fun e => e.tool)) ::
          rs.map (fun r => r.map (fun e => e.tool))).filter
          (fun s => decide (2 ≤ s.length)) := by
  induction rest with
  | nil =>
      intro prev cur t rs h
      have h' : ([[prev]] : List (List Exec)) = (prev :: t) :: rs := h
      simp only [List.cons.injEq] at h'
      obtain ⟨⟨-, ht⟩, hrs⟩ := h'
      subst ht; subst hrs
      by_cases hc : 2 ≤ cur.length
      · simp [sessionsGo, List.filter_cons, hc, Nat.lt_iff_add_one_le]
      · simp [sessionsGo, List.filter_cons, hc, Nat.lt_iff_add_one_le]
  | cons e rest ih =>
      intro prev cur t rs h
      obtain ⟨t', rs', h'⟩ := maximalRuns_cons e rest
      by_cases hgap : e.timestamp - prev.timestamp ≤ 300
      · have hm : maximalRuns (prev :: e :: rest) = (prev :: e :: t') :: rs' := by
          simp [maximalRuns, h', hgap]
        rw [hm] at h
        simp only [List.cons.injEq] at h
        obtain ⟨⟨-, ht⟩, hrs⟩ := h
        subst ht; subst hrs
        have hstep : sessionsGo prev cur (e :: rest) =
            sessionsGo e (cur ++ [e.tool]) rest := by
          simp [sessionsGo, hgap]
        rw [hstep, ih e (cur ++ [e.tool]) t' rs' h']
        simp
      · have hm : maximalRuns (prev :: e :: rest) = [prev] :: (e :: t') :: rs' := by
          simp [maximalRuns, h', hgap]
        rw [hm] at h
        simp only [List.cons.injEq] at h
        obtain ⟨⟨-, ht⟩, hrs⟩ := h
        subst ht; subst hrs
        have hstep : sessionsGo prev cur (e :: rest) =
            (if 1 < cur.length then [cur] else []) ++ sessionsGo e [e.tool] rest := by
          simp [sessionsGo, hgap]
        rw [hstep, ih e [e.tool] t' rs' h']
        by_cases hc : 2 ≤ cur.length
        · simp [List.filter_cons, hc, Nat.lt_iff_add_one_le]
        · simp [List.filter_cons, hc, Nat.lt_iff_add_one_le]

lemma splitSessions_eq_sessionsSpec (l : List Exec) :
    splitSessions l = sessionsSpec l := by
  cases l with
  | nil => rfl
  | cons e rest =>
      obtain ⟨t, rs, h⟩ := maximalRuns_cons e rest
      have : splitSessions (e :: rest) = sessionsGo e [e.tool] rest := rfl
      rw [this, sessionsGo_spec rest e [e.tool] t rs h]
      unfold sessionsSpec
      rw [h]
      simp

/-- The A/B/C at minutes 0, 2, 4 plus D at minute 40 scenario, listed most
recent first as `get_tool_executions` returns them. -/
def seqDemoExecs : List Exec :=
  [⟨4, "D", 2400, []⟩, ⟨3, "C", 240, []⟩, ⟨2, "B", 120, []⟩, ⟨1, "A", 0, []⟩]

/-- C5.  Session mining sorts the windowed executions by timestamp and
partitions them into the maximal runs with gaps of at most 5 minutes,
keeping runs of length at least 2 (`sessionList` equals the spec-level
`sessionsSpec` of the sorted window, and every session has length ≥ 2);
on A, B, C at minutes 0, 2, 4 and D at minute 40, the pair (A,B) and (B,C)
counts are 1, no pair involves D, and the average session length is 3. -/
theorem extract_sequence_patterns_spec :
    (∀ (execs : List Exec) (now : ℤ) (daysBack : ℕ),
      sessionList execs now daysBack = sessionsSpec (sequenceWindow execs now daysBack) ∧
      ∀ s ∈ sessionList execs now daysBack, 2 ≤ s.length) ∧
    toolPairCount seqDemoExecs 2400 30 ("A", "B") = 1 ∧
    toolPairCount seqDemoExecs 2400 30 ("B", "C") = 1 ∧
    (∀ x y : String, x = "D" ∨ y = "D" →
      toolPairCount seqDemoExecs 2400 30 (x, y) = 0) ∧
    average_sequence_length seqDemoExecs 2400 30 = 3 := by
  have hpairs : sessionPairs seqDemoExecs 2400 30 = [("A", "B"), ("B", "C")] := by
    decide
  refine ⟨?_, by decide, by decide, ?_, ?_⟩
  · intro execs now daysBack
    refine ⟨splitSessions_eq_sessionsSpec _, ?_⟩
    intro s hs
    unfold sessionList at hs
    rw [splitSessions_eq_sessionsSpec] at hs
    unfold sessionsSpec at hs
    simpa using List.of_mem_filter hs
  · intro x y hxy
    unfold toolPairCount
    rw [hpairs, List.count_eq_zero]
    intro hmem
    rcases hxy with h | h <;> subst h <;> simp [Prod.ext_iff] at hmem
  · have hsl : sessionList seqDemoExecs 2400 30 = [["A", "B", "C"]] := by decide
    unfold average_sequence_length
    rw [hsl]
    norm_num

/-! ### C9 -/

/-- Two executions with equal hour counts, the later hour listed first
(as `get_tool_executions` returns newest first). -/
def peakDemoExecs : List Exec :=
  [⟨2, "shell", 5 * 3600, []⟩, ⟨1, "browser", 3 * 3600, []⟩]

/-- C9 counterexample.  With one execution at hour 5 and one at hour 3 the
code ranks hour 5 first (stable sort keeps first-appearance order on equal
counts), while the claimed hour-ascending tie-break would rank hour 3
first. -/
theorem peak_hours_tiebreak_counterexample :
    extract_peak_hours peakDemoExecs (5 * 3600) 30 = [(5, 1), (3, 1)] ∧
    peak_hours_claimed peakDemoExecs (5 * 3600) 30 = [(3, 1), (5, 1)] ∧
    extract_peak_hours peakDemoExecs (5 * 3600) 30 ≠
      peak_hours_claimed peakDemoExecs (5 * 3600) 30 := by
  decide

/-- C9 amended.  `peak_hours` is the top 3 of the hourly distribution by
count descending (no omitted hour beats a kept one), but hours with equal
counts are kept in first-appearance order of the execution list, not in
ascending hour order. -/
theorem peak_hours_amended (execs : List Exec) (now : ℤ) (daysBack : ℕ) :
    (extract_peak_hours execs now daysBack).length ≤ 3 ∧
    List.Sorted countDesc (extract_peak_hours execs now daysBack) ∧
    (∀ p ∈ extract_peak_hours execs now daysBack,
      ∀ q ∈ hourly_distribution
        ((execs.filter (fun e => decide (now - 86400 * daysBack ≤ e.timestamp))).map
          (fun e => hourOf e.timestamp)),
        q ∉ extract_peak_hours execs now daysBack → q.2 ≤ p.2) ∧
    extract_peak_hours peakDemoExecs (5 * 3600) 30 = [(5, 1), (3, 1)] := by
  unfold extract_peak_hours
  refine ⟨List.length_take_le _ _, ?_, ?_, by decide⟩
  · exact (List.sorted_insertionSort countDesc _).sublist (List.take_sublist _ _)
  · intro p hp q hq hqnot
    have hqs : q ∈ List.insertionSort countDesc (hourly_distribution
        ((execs.filter (fun e => decide (now - 86400 * daysBack ≤ e.timestamp))).map
          (fun e => hourOf e.timestamp))) :=
      (List.perm_insertionSort countDesc _).mem_iff.mpr hq
    rw [← List.take_append_drop 3 (List.insertionSort countDesc _)] at hqs
    rcases List.mem_append.mp hqs with hqt | hqd
    · exact absurd hqt hqnot
    · have hpw := List.sorted_insertionSort countDesc (hourly_distribution
        ((execs.filter (fun e => decide (now - 86400 * daysBack ≤ e.timestamp))).map
          (fun e => hourOf e.timestamp)))
      rw [← List.take_append_drop 3 (List.insertionSort countDesc _)] at hpw
      exact (List.pairwise_append.mp hpw).2.2 p hp q hqd

/-! ### C6 -/

/-- `n` executions of the uncategorized tool "shell", one minute apart. -/
def gateDemoExecs (n : ℕ) : List Exec :=
  (List.range n).map (fun i => ⟨i, "shell", 60 * (i : ℤ), []⟩)

/-- C6.  Below 3 relevant executions the recognition cycle returns a
skipped result whose value does not depend on the analysis outcome (the
external analysis is never consulted); at 3 or more the result is never
"skipped".  With exactly 2 logged relevant executions the cycle skips, and
with a 3rd it proceeds to an analysis attempt. -/
theorem recognize_skip_on_insufficient_evidence (s : Store) (execs : List Exec)
    (lastTool : Option String) (now : ℤ) (d : ℕ) (analysis : AnalysisResult) :
    (totalRelevantExecutions execs lastTool now d < 3 →
      recognize_patterns s execs lastTool now d analysis =
        (s, .skipped (totalRelevantExecutions execs lastTool now d))) ∧
    (3 ≤ totalRelevantExecutions execs lastTool now d →
      ∀ n, (recognize_patterns s execs lastTool now d analysis).2 ≠ .skipped n) ∧
    (recognize_patterns s (gateDemoExecs 2) (some "shell") 120 30 analysis).2 =
      .skipped 2 ∧
    (∀ n, (recognize_patterns s (gateDemoExecs 3) (some "shell") 120 30
      analysis).2 ≠ .skipped n) := by
  have hlow : ∀ (execs' : List Exec) (lt' : Option String) (now' : ℤ) (d' : ℕ),
      totalRelevantExecutions execs' lt' now' d' < 3 →
      recognize_patterns s execs' lt' now' d' analysis =
        (s, .skipped (totalRelevantExecutions execs' lt' now' d')) := by
    intro execs' lt' now' d' h
    unfold recognize_patterns
    rw [if_pos h]
  have hhigh : ∀ (execs' : List Exec) (lt' : Option String) (now' : ℤ) (d' : ℕ),
      3 ≤ totalRelevantExecutions execs' lt' now' d' →
      ∀ n, (recognize_patterns s execs' lt' now' d' analysis).2 ≠ .skipped n := by
    intro execs' lt' now' d' h n
    unfold recognize_patterns
    rw [if_neg (not_lt.mpr h)]
    cases analysis <;> simp
  refine ⟨hlow execs lastTool now d, hhigh execs lastTool now d, ?_, ?_⟩
  · have h2 : totalRelevantExecutions (gateDemoExecs 2) (some "shell") 120 30 = 2 := by
      decide
    rw [hlow (gateDemoExecs 2) (some "shell") 120 30 (by rw [h2]; norm_num), h2]
  · have h3 : totalRelevantExecutions (gateDemoExecs 3) (some "shell") 120 30 = 3 := by
      decide
    exact hhigh (gateDemoExecs 3) (some "shell") 120 30 (by rw [h3])

/-! ### C7 -/

/-- A parser standing for `json.loads` on a malformed response. -/
def demoParse : String → Except String (List ModProposal) :=
  fun _ => .error "Expecting value: line 1 column 1 (char 0)"

/-- C7.  Every analysis failure mode — raised external-call error (which
covers timeouts), missing or empty response text, or unparsable response —
makes `analyze_patterns` report a failure, and a recognition cycle that
reaches the analysis step with a failed analysis returns the failure and
leaves the memory store exactly as it was: zero mutations. -/
theorem analysis_failure_zero_mutations (s : Store) (execs : List Exec)
    (lastTool : Option String) (now : ℤ) (d : ℕ) (call : GeminiCall)
    (parse : String → Except String (List ModProposal))
    (hgate : 3 ≤ totalRelevantExecutions execs lastTool now d) :
    (∀ e, call = .callError e → analyze_patterns call parse = .failure e) ∧
    (call = .callResponse none →
      analyze_patterns call parse = .failure "Empty response from Gemini") ∧
    (∀ txt e, call = .callResponse (some txt) → txt ≠ "" →
      parse (pyTrim txt) = .error e → analyze_patterns call parse = .failure e) ∧
    (∀ err, analyze_patterns call parse = .failure err →
      recognize_patterns s execs lastTool now d (analyze_patterns call parse) =
        (s, .failed err)) := by
  refine ⟨?_, ?_, ?_, ?_⟩
  · intro e h; subst h; rfl
  · intro h; subst h; rfl
  · intro txt e h hne hp
    subst h
    unfold analyze_patterns
    dsimp only
    rw [if_neg hne, hp]
  · intro err h
    unfold recognize_patterns
    rw [if_neg (not_lt.mpr hgate), h]

theorem analysis_failure_zero_mutations_witness :
    recognize_patterns ⟨[], 1⟩ (gateDemoExecs 3) (some "shell") 120 30
      (analyze_patterns (.callError "external call timed out") demoParse) =
    (⟨[], 1⟩, .failed "external call timed out") :=
  (analysis_failure_zero_mutations ⟨[], 1⟩ (gateDemoExecs 3) (some "shell") 120 30
    (.callError "external call timed out") demoParse (by decide)).2.2.2
    "external call timed out" rfl

end Luna
